import Mathlib

/-!
# Verification of `circ_bs` (circular binary search), `src/circ_bs.py`

The Python program implements a binary search over a list that is sorted
except for a single rotation point ("the link"):

```python
def circ_bs(list, target):
    size = len(list)
    lower = 0
    upper = size - 1
    pos = -1  # The return value. Assume failure.
    found = False
    if size == 0:
        found = True
    while not found and lower <= upper:
        mid = (upper + lower) // 2
        if list[mid] == target:
            pos = mid
            found = True
        elif target >= list[lower] and target < list[mid]:
            upper = mid - 1
        elif target > list[mid] and target <= list[upper]:
            lower = mid + 1
        else:  # MARKER 1
            if list[lower] > list[mid]:  # MARKER 2
                upper = mid - 1
            else:
                lower = mid + 1
    return pos
```

The embedding below models the element type as `Int` (the demo driver uses
Python ints; the algorithm only needs a total order).  Python list indexing
`list[i]` is modelled by `listGet?`, including Python's negative-index
wrap-around; an out-of-range access (an `IndexError` in Python) is `none`,
so the whole search returns `Option`: `none` models a raised exception,
`some (-1)` the not-found result, and `some i` (`i ≥ 0`) a hit at index `i`.
Python's `//` is floor division, modelled by `Int.fdiv`.

One execution of the `while` body is `circStep` (mirroring the branch order
and the short-circuit evaluation of the Python conditions: `list[mid]` is
always read, `list[lower]` is read unless the `mid` test hits, and
`list[upper]` is read only when `target > list[mid]`).  The loop `circBsLoop`
iterates `circStep` while `lower ≤ upper`, and additionally counts the
number of executed loop bodies so that iteration-count properties can be
stated; `circ_bs` projects the returned position and `circIter` the
iteration count.
-/

/-- Python list indexing `l[i]`: a negative index `i` with `-n ≤ i` wraps to
`i + n`; any other out-of-range index raises, modelled as `none`. -/
def listGet? (l : List Int) (i : Int) : Option Int :=
  let n : Int := l.length
  let j : Int := if i < 0 then i + n else i
  if h : 0 ≤ j ∧ j < n then some (l.get ⟨j.toNat, by omega⟩) else none

/-- One execution of the `while` body of `circ_bs` at window `[lower, upper]`:
`Sum.inl pos` models `found = True` with return value `pos`, and
`Sum.inr (lower', upper')` the next window.  `none` models an `IndexError`. -/
def circStep (l : List Int) (target lower upper : Int) : Option (Int ⊕ Int × Int) :=
  match listGet? l (Int.fdiv (upper + lower) 2) with
  | none => none
  | some vm =>
    if vm = target then some (Sum.inl (Int.fdiv (upper + lower) 2))
    else
      match listGet? l lower with
      | none => none
      | some vl =>
        if target ≥ vl ∧ target < vm then
          some (Sum.inr (lower, Int.fdiv (upper + lower) 2 - 1))
        else if target > vm then
          match listGet? l upper with
          | none => none
          | some vu =>
            if target ≤ vu then some (Sum.inr (Int.fdiv (upper + lower) 2 + 1, upper))
            else if vl > vm then some (Sum.inr (lower, Int.fdiv (upper + lower) 2 - 1))
            else some (Sum.inr (Int.fdiv (upper + lower) 2 + 1, upper))
        else if vl > vm then some (Sum.inr (lower, Int.fdiv (upper + lower) 2 - 1))
        else some (Sum.inr (Int.fdiv (upper + lower) 2 + 1, upper))

/-- The floor of the average of `lower ≤ upper` stays inside `[lower, upper]`. -/
lemma fdiv2_bounds {lo up : Int} (h : lo ≤ up) :
    lo ≤ Int.fdiv (up + lo) 2 ∧ Int.fdiv (up + lo) 2 ≤ up := by
  rw [Int.fdiv_eq_ediv _ (by omega)]
  omega

/-- Any continuing step goes to window `(lower, mid-1)` or `(mid+1, upper)`. -/
lemma circStep_inr_shape {l : List Int} {t lo up a b : Int}
    (h : circStep l t lo up = some (Sum.inr (a, b))) :
    (a = lo ∧ b = Int.fdiv (up + lo) 2 - 1) ∨
    (a = Int.fdiv (up + lo) 2 + 1 ∧ b = up) := by
  unfold circStep at h
  repeat' split at h
  all_goals try exact Option.noConfusion h
  all_goals
    simp only [Option.some.injEq, Sum.inr.injEq, Prod.mk.injEq] at h
  all_goals tauto

/-- The window of a continuing step strictly shrinks. -/
lemma circStep_inr_lt {l : List Int} {t lo up a b : Int} (hle : lo ≤ up)
    (h : circStep l t lo up = some (Sum.inr (a, b))) :
    b - a < up - lo := by
  have hm := fdiv2_bounds hle
  rcases circStep_inr_shape h with ⟨ha, hb⟩ | ⟨ha, hb⟩ <;> omega

/-- The `while` loop of `circ_bs`, returning the final `pos` paired with the
number of loop-body executions (`none` models an `IndexError`). -/
def circBsLoop (l : List Int) (target lower upper : Int) : Option (Int × Nat) :=
  if hle : lower ≤ upper then
    match h : circStep l target lower upper with
    | none => none
    | some (Sum.inl p) => some (p, 1)
    | some (Sum.inr (a, b)) =>
      (circBsLoop l target a b).map (fun r => (r.1, r.2 + 1))
  else
    some (-1, 0)
termination_by (upper - lower + 1).toNat
decreasing_by
  have := circStep_inr_lt hle h
  omega

/-- `circ_bs`: `some (-1)` is the not-found result, `some i` a hit at index
`i`, and `none` a raised `IndexError` (proved impossible below). -/
def circ_bs (l : List Int) (target : Int) : Option Int :=
  if l.length = 0 then some (-1)
  else (circBsLoop l target 0 ((l.length : Int) - 1)).map Prod.fst

/-- The number of loop-body executions performed by `circ_bs`. -/
def circIter (l : List Int) (target : Int) : Option Nat :=
  if l.length = 0 then some 0
  else (circBsLoop l target 0 ((l.length : Int) - 1)).map Prod.snd

/-! ## Rotated sorted sequences

`rotate S k` moves the first `k` elements of `S` to the back, so that
`rotate S k` agrees with the spec's `rotate(S,k)[i] = S[(i+k) mod n]`
(for `k ≤ n`).  The demo driver builds its rotated list the same way:
`list[-200:] + list[0:800]` is `rotate list 800`.

`RotSorted l d` is the structural fact the correctness proofs run on:
`l` splits at position `d` into two strictly ascending runs, and every
element of the second run is smaller than every element of the first.
A rotation of a strictly ascending list by `k` satisfies it with
`d = n - k`; a plain strictly ascending list satisfies it with `d = n`. -/

/-- Left rotation by `k`: `rotate S k = S.drop k ++ S.take k`. -/
def rotate (S : List Int) (k : Nat) : List Int :=
  S.drop k ++ S.take k

/-- `l` is two strictly ascending runs split at `d`, the second run entirely
below the first (reading elements with `getD · 0`). -/
def RotSorted (l : List Int) (d : Nat) : Prop :=
  d ≤ l.length ∧
  (∀ i j : Nat, i < j → j < l.length → (j < d ∨ d ≤ i) → l.getD i 0 < l.getD j 0) ∧
  (∀ i j : Nat, i < d → d ≤ j → j < l.length → l.getD j 0 < l.getD i 0)

lemma rotate_length (S : List Int) (k : Nat) : (rotate S k).length = S.length := by
  simp [rotate]
  omega

lemma sorted_getD_lt {S : List Int} (hS : List.Sorted (· < ·) S) {a b : Nat}
    (hab : a < b) (hb : b < S.length) : S.getD a 0 < S.getD b 0 := by
  rw [List.getD_eq_getElem _ _ (lt_trans hab hb), List.getD_eq_getElem _ _ hb]
  exact List.pairwise_iff_get.1 hS ⟨a, lt_trans hab hb⟩ ⟨b, hb⟩ hab

lemma rotate_getD_low {S : List Int} {k i : Nat} (hk : k ≤ S.length)
    (hi : i < S.length - k) : (rotate S k).getD i 0 = S.getD (k + i) 0 := by
  have h1 : i < (S.drop k).length := by simp; omega
  have h2 : k + i < S.length := by omega
  rw [rotate, List.getD_append _ _ _ _ h1, List.getD_eq_getElem _ _ h1,
    List.getD_eq_getElem _ _ h2, List.getElem_drop]

lemma rotate_getD_high {S : List Int} {k i : Nat} (hk : k ≤ S.length)
    (hlo : S.length - k ≤ i) (hi : i < S.length) :
    (rotate S k).getD i 0 = S.getD (i - (S.length - k)) 0 := by
  have hd : (S.drop k).length = S.length - k := by simp
  have h2 : i - (S.length - k) < (S.take k).length := by simp; omega
  have h3 : i - (S.length - k) < S.length := by omega
  have h4 : i < (rotate S k).length := by rw [rotate_length]; exact hi
  rw [rotate] at h4 ⊢
  rw [List.getD_eq_getElem _ _ h4, List.getElem_append_right (by omega),
    List.getD_eq_getElem _ _ h3]
  simp [hd]

/-- A rotation of a strictly ascending list is `RotSorted` at `d = n - k`. -/
lemma rotSorted_rotate {S : List Int} (hS : List.Sorted (· < ·) S) {k : Nat}
    (hk : k ≤ S.length) : RotSorted (rotate S k) (S.length - k) := by
  have hlen := rotate_length S k
  refine ⟨by omega, ?_, ?_⟩
  · intro i j hij hj hside
    rw [hlen] at hj
    rcases hside with hjd | hdi
    · rw [rotate_getD_low hk (by omega), rotate_getD_low hk (by omega)]
      exact sorted_getD_lt hS (by omega) (by omega)
    · rw [rotate_getD_high (i := i) hk hdi (by omega),
        rotate_getD_high (i := j) hk (by omega) (by omega)]
      exact sorted_getD_lt hS (by omega) (by omega)
  · intro i j hid hdj hj
    rw [hlen] at hj
    rw [rotate_getD_high (i := j) hk hdj (by omega),
      rotate_getD_low (i := i) hk (by omega)]
    exact sorted_getD_lt hS (by omega) (by omega)

/-- A plain strictly ascending list is `RotSorted` at `d = n`. -/
lemma rotSorted_sorted {S : List Int} (hS : List.Sorted (· < ·) S) :
    RotSorted S S.length := by
  refine ⟨le_refl _, ?_, ?_⟩
  · intro i j hij hj _
    exact sorted_getD_lt hS hij hj
  · intro i j _ hdj hj
    omega

/-! ## Where the target can be, branch by branch

In each lemma `a`, `m`, `u`, `j` are `lower`, `mid`, `upper` and the position
of the target, as `Nat` indices into the `RotSorted` list `l`; `l.getD · 0`
reads the values `list[lower]`, `list[mid]`, `list[upper]`, `target`. -/

/-- Branch `target >= list[lower] and target < list[mid]`: the target is
strictly left of `mid`. -/
lemma rot_left_of_c2 {l : List Int} {d : Nat} (rs : RotSorted l d)
    {a m u j : Nat} (ham : a ≤ m) (hmu : m ≤ u) (hun : u < l.length)
    (haj : a ≤ j) (hju : j ≤ u)
    (h1 : l.getD a 0 ≤ l.getD j 0) (h2 : l.getD j 0 < l.getD m 0) :
    j < m := by
  by_contra hc
  push_neg at hc
  have hmj : m < j := by
    rcases Nat.lt_or_ge m j with h | h
    · exact h
    · have : j = m := by omega
      subst this
      omega
  by_cases hdm : d ≤ m
  · have := rs.2.1 m j hmj (by omega) (Or.inr hdm)
    omega
  · by_cases hjd : j < d
    · have := rs.2.1 m j hmj (by omega) (Or.inl hjd)
      omega
    · have := rs.2.2 a j (by omega) (by omega) (by omega)
      omega

/-- Branch `target > list[mid] and target <= list[upper]`: the target is
strictly right of `mid`. -/
lemma rot_right_of_c3 {l : List Int} {d : Nat} (rs : RotSorted l d)
    {a m u j : Nat} (ham : a ≤ m) (hmu : m ≤ u) (hun : u < l.length)
    (haj : a ≤ j) (hju : j ≤ u)
    (h1 : l.getD m 0 < l.getD j 0) (h2 : l.getD j 0 ≤ l.getD u 0) :
    m < j := by
  by_contra hc
  push_neg at hc
  have hjm : j < m := by
    rcases Nat.lt_or_ge j m with h | h
    · exact h
    · have : j = m := by omega
      subst this
      omega
  by_cases hmd : m < d
  · have := rs.2.1 j m hjm (by omega) (Or.inl hmd)
    omega
  · by_cases hdj : d ≤ j
    · have := rs.2.1 j m hjm (by omega) (Or.inr hdj)
      omega
    · have := rs.2.2 j u (by omega) (by omega) (by omega)
      omega

/-- MARKER branch with `list[lower] > list[mid]`: the link is left of `mid`,
and so is the target.  The hypothesis `himp` records what the failure of the
two standard branches says at this point: if `target > list[mid]` then also
`target > list[upper]`. -/
lemma rot_left_of_marker {l : List Int} {d : Nat} (rs : RotSorted l d)
    {a m u j : Nat} (ham : a ≤ m) (hmu : m ≤ u) (hun : u < l.length)
    (haj : a ≤ j) (hju : j ≤ u)
    (hne : l.getD j 0 ≠ l.getD m 0)
    (himp : l.getD m 0 < l.getD j 0 → l.getD u 0 < l.getD j 0)
    (hlm : l.getD m 0 < l.getD a 0) :
    j < m := by
  have ham' : a < m := by
    rcases Nat.lt_or_ge a m with h | h
    · exact h
    · have : a = m := by omega
      subst this
      omega
  have hd : a < d ∧ d ≤ m := by
    by_contra hcd
    have hor : m < d ∨ d ≤ a := by omega
    have := rs.2.1 a m ham' (by omega) hor
    omega
  by_contra hc
  push_neg at hc
  have hmj : m < j := by
    rcases Nat.lt_or_ge m j with h | h
    · exact h
    · have : j = m := by omega
      subst this
      simp at hne
  have h1 : l.getD m 0 < l.getD j 0 := rs.2.1 m j hmj (by omega) (Or.inr hd.2)
  have h2 := himp h1
  rcases Nat.lt_or_ge j u with h | h
  · have := rs.2.1 j u h hun (Or.inr (by omega))
    omega
  · have : j = u := by omega
    subst this
    omega

/-- MARKER branch with `list[lower] <= list[mid]`: the run `lower..mid` is
clean, and the failure of the first standard branch (`hc2`) puts the target
strictly right of `mid`. -/
lemma rot_right_of_marker {l : List Int} {d : Nat} (rs : RotSorted l d)
    {a m u j : Nat} (ham : a ≤ m) (hmu : m ≤ u) (hun : u < l.length)
    (haj : a ≤ j) (hju : j ≤ u)
    (hne : l.getD j 0 ≠ l.getD m 0)
    (hc2 : ¬(l.getD a 0 ≤ l.getD j 0 ∧ l.getD j 0 < l.getD m 0))
    (hml : l.getD a 0 ≤ l.getD m 0) :
    m < j := by
  have hside : d ≤ a ∨ m < d := by
    by_contra hcd
    push_neg at hcd
    have := rs.2.2 a m (by omega) (by omega) (by omega)
    omega
  by_contra hc
  push_neg at hc
  have hjm : j < m := by
    rcases Nat.lt_or_ge j m with h | h
    · exact h
    · have : j = m := by omega
      subst this
      simp at hne
  have h1 : l.getD j 0 < l.getD m 0 := by
    refine rs.2.1 j m hjm (by omega) ?_
    rcases hside with h | h
    · exact Or.inr (by omega)
    · exact Or.inl (by omega)
  have h2 : l.getD a 0 ≤ l.getD j 0 := by
    rcases Nat.lt_or_ge a j with h | h
    · refine le_of_lt (rs.2.1 a j h (by omega) ?_)
      rcases hside with h' | h'
      · exact Or.inr (by omega)
      · exact Or.inl (by omega)
    · have : a = j := by omega
      subst this
      exact le_refl _
  exact hc2 ⟨h2, h1⟩

/-! ## Behaviour of one loop body -/

/-- `listGet?` at an index in `[0, n)` reads the element, no wrap-around. -/
lemma listGet?_eq {l : List Int} {i : Int} (h0 : 0 ≤ i) (h1 : i < (l.length : Int)) :
    listGet? l i = some (l.getD i.toNat 0) := by
  have hni : ¬ i < 0 := by omega
  simp only [listGet?, hni, if_false, ite_false]
  rw [dif_pos ⟨h0, h1⟩]
  congr 1
  rw [List.getD_eq_getElem _ _ (by omega)]
  simp

/-- With the window inside the list, the loop body never raises. -/
lemma circStep_ne_none {l : List Int} {t lo up : Int}
    (hlo : 0 ≤ lo) (hle : lo ≤ up) (hup : up < (l.length : Int)) :
    circStep l t lo up ≠ none := by
  obtain ⟨hm1, hm2⟩ := fdiv2_bounds hle
  have em := listGet?_eq (l := l) (i := Int.fdiv (up + lo) 2) (by omega) (by omega)
  have el := listGet?_eq (l := l) (i := lo) hlo (by omega)
  have eu := listGet?_eq (l := l) (i := up) (by omega) hup
  simp only [circStep, em, el, eu]
  split_ifs <;> simp

/-- With the window inside the list, a `found` exit returns `mid`, an index
inside the window holding the target. -/
lemma circStep_inl {l : List Int} {t lo up p : Int}
    (hlo : 0 ≤ lo) (hle : lo ≤ up) (hup : up < (l.length : Int))
    (h : circStep l t lo up = some (Sum.inl p)) :
    lo ≤ p ∧ p ≤ up ∧ l.getD p.toNat 0 = t := by
  obtain ⟨hm1, hm2⟩ := fdiv2_bounds hle
  have em := listGet?_eq (l := l) (i := Int.fdiv (up + lo) 2) (by omega) (by omega)
  have el := listGet?_eq (l := l) (i := lo) hlo (by omega)
  have eu := listGet?_eq (l := l) (i := up) (by omega) hup
  simp only [circStep, em, el, eu] at h
  split_ifs at h with hf
  · have hp := Sum.inl.inj (Option.some.inj h)
    subst hp
    exact ⟨hm1, hm2, hf⟩
  all_goals exact Sum.noConfusion (Option.some.inj h)

/-- The target invariant, one body at a time: if the target sits at position
`jj` of the current window of a `RotSorted` list, the body either returns an
index holding the target, or narrows the window while keeping `jj` inside. -/
lemma circStep_cases {l : List Int} {d : Nat} (rs : RotSorted l d)
    {t lo up jj : Int} (hlo : 0 ≤ lo) (hup : up < (l.length : Int))
    (h1 : lo ≤ jj) (h2 : jj ≤ up) (ht : l.getD jj.toNat 0 = t) :
    (∃ p, circStep l t lo up = some (Sum.inl p) ∧ lo ≤ p ∧ p ≤ up ∧
      l.getD p.toNat 0 = t) ∨
    (∃ a b, circStep l t lo up = some (Sum.inr (a, b)) ∧ lo ≤ a ∧ b ≤ up ∧
      a ≤ jj ∧ jj ≤ b) := by
  have hle : lo ≤ up := le_trans h1 h2
  obtain ⟨hm1, hm2⟩ := fdiv2_bounds hle
  have em := listGet?_eq (l := l) (i := Int.fdiv (up + lo) 2) (by omega) (by omega)
  have el := listGet?_eq (l := l) (i := lo) hlo (by omega)
  have eu := listGet?_eq (l := l) (i := up) (by omega) hup
  have hAM : lo.toNat ≤ (Int.fdiv (up + lo) 2).toNat := by omega
  have hMU : (Int.fdiv (up + lo) 2).toNat ≤ up.toNat := by omega
  have hUn : up.toNat < l.length := by omega
  have hAJ : lo.toNat ≤ jj.toNat := by omega
  have hJU : jj.toNat ≤ up.toNat := by omega
  simp only [circStep, em, el, eu]
  split_ifs
  · exact Or.inl ⟨_, rfl, hm1, hm2, by assumption⟩
  · refine Or.inr ⟨_, _, rfl, le_refl _, by omega, h1, ?_⟩
    have := rot_left_of_c2 rs hAM hMU hUn hAJ hJU (by omega) (by omega)
    omega
  · refine Or.inr ⟨_, _, rfl, by omega, le_refl _, ?_, h2⟩
    have := rot_right_of_c3 rs hAM hMU hUn hAJ hJU (by omega) (by omega)
    omega
  · refine Or.inr ⟨_, _, rfl, le_refl _, by omega, h1, ?_⟩
    have := rot_left_of_marker rs hAM hMU hUn hAJ hJU (by omega)
      (fun _ => by omega) (by omega)
    omega
  · refine Or.inr ⟨_, _, rfl, by omega, le_refl _, ?_, h2⟩
    have := rot_right_of_marker rs hAM hMU hUn hAJ hJU (by omega)
      (by omega) (by omega)
    omega
  · refine Or.inr ⟨_, _, rfl, le_refl _, by omega, h1, ?_⟩
    have := rot_left_of_marker rs hAM hMU hUn hAJ hJU (by omega)
      (fun hh => absurd hh (by omega)) (by omega)
    omega
  · refine Or.inr ⟨_, _, rfl, by omega, le_refl _, ?_, h2⟩
    have := rot_right_of_marker rs hAM hMU hUn hAJ hJU (by omega)
      (by omega) (by omega)
    omega

/-! ## Behaviour of the whole loop -/

/-- `t ∈ l` phrased through `getD` positions. -/
lemma mem_iff_getD {l : List Int} {t : Int} :
    t ∈ l ↔ ∃ j : Nat, j < l.length ∧ l.getD j 0 = t := by
  rw [List.mem_iff_get]
  constructor
  · rintro ⟨j, hj⟩
    exact ⟨j.1, j.2, by rw [List.getD_eq_getElem _ _ j.2, ← hj]; simp⟩
  · rintro ⟨j, hj, hval⟩
    exact ⟨⟨j, hj⟩, by rw [List.getD_eq_getElem _ _ hj] at hval; rw [← hval]; simp⟩

/-- With a window inside the list, the loop terminates with a result and
never raises. -/
lemma circBsLoop_total (l : List Int) (t : Int) :
    ∀ W : Nat, ∀ lo up : Int, (up - lo + 1).toNat ≤ W → 0 ≤ lo →
      up < (l.length : Int) → ∃ p c, circBsLoop l t lo up = some (p, c) := by
  intro W
  induction W with
  | zero =>
    intro lo up hW hlo hup
    unfold circBsLoop
    rw [dif_neg (by omega)]
    exact ⟨-1, 0, rfl⟩
  | succ W ih =>
    intro lo up hW hlo hup
    unfold circBsLoop
    by_cases hle : lo ≤ up
    · rw [dif_pos hle]
      split
      · next heq => exact absurd heq (circStep_ne_none hlo hle hup)
      · next p heq => exact ⟨p, 1, rfl⟩
      · next a b heq =>
        have hshape := circStep_inr_shape heq
        obtain ⟨hm1, hm2⟩ := fdiv2_bounds hle
        have hlt := circStep_inr_lt hle heq
        obtain ⟨p, c, hpc⟩ := ih a b (by omega) (by rcases hshape with ⟨h,_⟩|⟨h,_⟩ <;> omega)
          (by rcases hshape with ⟨_,h⟩|⟨_,h⟩ <;> omega)
        exact ⟨p, c + 1, by rw [hpc]; rfl⟩
    · rw [dif_neg hle]
      exact ⟨-1, 0, rfl⟩

/-- Soundness of the loop: a returned position other than `-1` lies in the
initial window and holds the target. -/
lemma circBsLoop_sound (l : List Int) (t : Int) :
    ∀ W : Nat, ∀ lo up : Int, (up - lo + 1).toNat ≤ W → 0 ≤ lo →
      up < (l.length : Int) → ∀ p c, circBsLoop l t lo up = some (p, c) →
      p ≠ -1 → lo ≤ p ∧ p ≤ up ∧ l.getD p.toNat 0 = t := by
  intro W
  induction W with
  | zero =>
    intro lo up hW hlo hup p c hpc hp
    unfold circBsLoop at hpc
    rw [dif_neg (by omega)] at hpc
    exact absurd (Prod.mk.injEq .. ▸ Option.some.inj hpc).1.symm hp
  | succ W ih =>
    intro lo up hW hlo hup p c hpc hp
    unfold circBsLoop at hpc
    by_cases hle : lo ≤ up
    · rw [dif_pos hle] at hpc
      split at hpc
      · next heq => exact absurd heq (circStep_ne_none hlo hle hup)
      · next q heq =>
        have hq := (Prod.mk.injEq .. ▸ Option.some.inj hpc).1
        subst hq
        exact circStep_inl hlo hle hup heq
      · next a b heq =>
        have hshape := circStep_inr_shape heq
        obtain ⟨hm1, hm2⟩ := fdiv2_bounds hle
        have hlt := circStep_inr_lt hle heq
        obtain ⟨⟨q, c''⟩, hpc', hmap⟩ := Option.map_eq_some'.1 hpc
        simp only [Prod.mk.injEq] at hmap
        obtain ⟨hq, hc⟩ := hmap
        subst hq
        have := ih a b (by omega) (by rcases hshape with ⟨h,_⟩|⟨h,_⟩ <;> omega)
          (by rcases hshape with ⟨_,h⟩|⟨_,h⟩ <;> omega) q c'' hpc' hp
        rcases hshape with ⟨ha, hb⟩ | ⟨ha, hb⟩ <;> exact ⟨by omega, by omega, this.2.2⟩
    · rw [dif_neg hle] at hpc
      exact absurd (Prod.mk.injEq .. ▸ Option.some.inj hpc).1.symm hp

/-- Completeness of the loop on a `RotSorted` list: if the target sits inside
the window, the loop returns a position holding it. -/
lemma circBsLoop_finds {l : List Int} {d : Nat} (rs : RotSorted l d) (t : Int) :
    ∀ W : Nat, ∀ lo up jj : Int, (up - lo + 1).toNat ≤ W → 0 ≤ lo →
      up < (l.length : Int) → lo ≤ jj → jj ≤ up → l.getD jj.toNat 0 = t →
      ∃ p c, circBsLoop l t lo up = some (p, c) ∧ lo ≤ p ∧ p ≤ up ∧
        l.getD p.toNat 0 = t := by
  intro W
  induction W with
  | zero => intro lo up jj hW hlo hup hj1 hj2 ht; omega
  | succ W ih =>
    intro lo up jj hW hlo hup hj1 hj2 ht
    have hle : lo ≤ up := le_trans hj1 hj2
    unfold circBsLoop
    rw [dif_pos hle]
    rcases circStep_cases rs hlo hup hj1 hj2 ht with
      ⟨p, hstep, hp1, hp2, hpt⟩ | ⟨a, b, hstep, hab1, hab2, hj1', hj2'⟩
    · split
      · next heq => exact absurd heq (circStep_ne_none hlo hle hup)
      · next q heq =>
        rw [hstep] at heq
        have := Sum.inl.inj (Option.some.inj heq)
        subst this
        exact ⟨p, 1, rfl, hp1, hp2, hpt⟩
      · next a b heq =>
        rw [hstep] at heq
        exact Sum.noConfusion (Option.some.inj heq)
    · split
      · next heq => exact absurd heq (circStep_ne_none hlo hle hup)
      · next q heq =>
        rw [hstep] at heq
        exact Sum.noConfusion (Option.some.inj heq)
      · next a' b' heq =>
        rw [hstep] at heq
        have hab := Prod.mk.injEq .. ▸ Sum.inr.inj (Option.some.inj heq)
        obtain ⟨ha, hb⟩ := hab
        subst ha
        subst hb
        have hlt := circStep_inr_lt hle hstep
        obtain ⟨p, c, hpc, hp1, hp2, hpt⟩ := ih a b jj (by omega) (by omega)
          (by omega) hj1' hj2' ht
        exact ⟨p, c + 1, by rw [hpc]; rfl, by omega, by omega, hpt⟩

/-- Iteration count: with window size at most `W ≥ 1`, the loop executes at
most `log2 W + 1` bodies (the window at least halves each time). -/
lemma circBsLoop_iter (l : List Int) (t : Int) :
    ∀ W : Nat, ∀ lo up : Int, (up - lo + 1).toNat ≤ W → 0 ≤ lo →
      up < (l.length : Int) → ∀ p c, circBsLoop l t lo up = some (p, c) →
      c ≤ (if W = 0 then 0 else Nat.log 2 W + 1) := by
  intro W
  induction W using Nat.strong_induction_on with
  | _ W ih =>
    intro lo up hW hlo hup p c hpc
    by_cases hle : lo ≤ up
    · have hW0 : W ≠ 0 := by omega
      unfold circBsLoop at hpc
      rw [dif_pos hle] at hpc
      split at hpc
      · exact Option.noConfusion hpc
      · next q heq =>
        have hc := (Prod.mk.injEq .. ▸ Option.some.inj hpc).2
        rw [if_neg hW0]
        omega
      · next a b heq =>
        have hshape := circStep_inr_shape heq
        obtain ⟨hm1, hm2⟩ := fdiv2_bounds hle
        have hfd : Int.fdiv (up + lo) 2 = (up + lo) / 2 := Int.fdiv_eq_ediv _ (by omega)
        rw [hfd] at hshape hm1 hm2
        obtain ⟨⟨q, c'⟩, hpc', hmap⟩ := Option.map_eq_some'.1 hpc
        simp only [Prod.mk.injEq] at hmap
        have hWhalf : (b - a + 1).toNat ≤ W / 2 := by
          rcases hshape with ⟨ha, hb⟩ | ⟨ha, hb⟩ <;> omega
        have hrec := ih (W / 2) (by omega) a b hWhalf
          (by rcases hshape with ⟨h, _⟩ | ⟨h, _⟩ <;> omega)
          (by rcases hshape with ⟨_, h⟩ | ⟨_, h⟩ <;> omega) q c' hpc'
        rw [if_neg hW0]
        by_cases hW2 : W / 2 = 0
        · rw [if_pos hW2] at hrec
          omega
        · rw [if_neg hW2] at hrec
          have hlog : Nat.log 2 (W / 2) = Nat.log 2 W - 1 := Nat.log_div_base 2 W
          have hpos : 0 < Nat.log 2 W := Nat.log_pos (by norm_num) (by omega)
          omega
    · unfold circBsLoop at hpc
      rw [dif_neg hle] at hpc
      have hc := (Prod.mk.injEq .. ▸ Option.some.inj hpc).2
      split <;> omega

/-! ## Reachable loop states -/

/-- The window states `(lower, upper)` that an execution of `circ_bs l t`
can reach: the initial window, plus anything a continuing body leads to. -/
inductive Reachable (l : List Int) (t : Int) : Int → Int → Prop
  | init : Reachable l t 0 ((l.length : Int) - 1)
  | step {lo up a b : Int} : Reachable l t lo up → lo ≤ up →
      circStep l t lo up = some (Sum.inr (a, b)) → Reachable l t a b

/-- Every reachable window satisfies `0 ≤ lower` and `upper ≤ n - 1`. -/
lemma reachable_bounds {l : List Int} {t lo up : Int} (h : Reachable l t lo up) :
    0 ≤ lo ∧ up ≤ (l.length : Int) - 1 := by
  induction h with
  | init => exact ⟨le_refl 0, le_refl _⟩
  | step hr hle hstep ih =>
    obtain ⟨hm1, hm2⟩ := fdiv2_bounds hle
    rcases circStep_inr_shape hstep with ⟨ha, hb⟩ | ⟨ha, hb⟩ <;> omega

/-! ## Top-level packaging -/

/-- `rotate S k` is a permutation of `S`. -/
lemma rotate_perm (S : List Int) (k : Nat) : (rotate S k).Perm S := by
  rw [rotate]
  exact (List.perm_append_comm).trans (by rw [List.take_append_drop])

lemma mem_rotate {S : List Int} {k : Nat} {x : Int} : x ∈ rotate S k ↔ x ∈ S :=
  (rotate_perm S k).mem_iff

/-- `circ_bs` always returns `some` result: `-1`, or a hit on the target. -/
lemma circ_bs_spec (l : List Int) (t : Int) :
    ∃ p : Int, circ_bs l t = some p ∧
      (p = -1 ∨ (0 ≤ p ∧ p.toNat < l.length ∧ l.getD p.toNat 0 = t)) := by
  by_cases h0 : l.length = 0
  · exact ⟨-1, by rw [circ_bs, if_pos h0], Or.inl rfl⟩
  · obtain ⟨p, c, hpc⟩ := circBsLoop_total l t l.length 0 ((l.length : Int) - 1)
      (by omega) (by omega) (by omega)
    refine ⟨p, by rw [circ_bs, if_neg h0, hpc]; rfl, ?_⟩
    by_cases hp : p = -1
    · exact Or.inl hp
    · have := circBsLoop_sound l t l.length 0 ((l.length : Int) - 1)
        (by omega) (by omega) (by omega) p c hpc hp
      exact Or.inr ⟨this.1, by omega, this.2.2⟩

/-- On a `RotSorted` list, every present target is found. -/
lemma circ_bs_finds_of_rotSorted {l : List Int} {d : Nat} (rs : RotSorted l d)
    {t : Int} (ht : t ∈ l) :
    ∃ j : Int, circ_bs l t = some j ∧ 0 ≤ j ∧ j.toNat < l.length ∧
      l.getD j.toNat 0 = t := by
  obtain ⟨jj, hjj, hval⟩ := mem_iff_getD.1 ht
  have h0 : l.length ≠ 0 := by omega
  obtain ⟨p, c, hpc, hp1, hp2, hpt⟩ := circBsLoop_finds rs t l.length 0
    ((l.length : Int) - 1) (jj : Int) (by omega) (by omega) (by omega)
    (by omega) (by omega) (by simpa using hval)
  exact ⟨p, by rw [circ_bs, if_neg h0, hpc]; rfl, hp1, by omega, hpt⟩

/-- If the target does not occur, the result is the absent marker `-1`. -/
lemma circ_bs_absent_of_not_mem {l : List Int} {t : Int} (ht : t ∉ l) :
    circ_bs l t = some (-1) := by
  obtain ⟨p, hp, hcase⟩ := circ_bs_spec l t
  rcases hcase with rfl | ⟨hp0, hplen, hpval⟩
  · exact hp
  · exact absurd (mem_iff_getD.2 ⟨p.toNat, hplen, hpval⟩) ht

/-! ## A fuel-indexed twin of the loop, for concrete evaluation

`circBsLoop` recurses on a well-founded measure, which the kernel cannot
evaluate cheaply on concrete inputs.  `circLoopFuel` is the same loop with
structural recursion on a fuel counter; with fuel at least the window size
the two agree, which lets concrete runs be checked by `decide`. -/

def circLoopFuel (l : List Int) (t : Int) : Nat → Int → Int → Option (Int × Nat)
  | 0, lo, up => if lo ≤ up then none else some (-1, 0)
  | fuel + 1, lo, up =>
    if lo ≤ up then
      match circStep l t lo up with
      | none => none
      | some (Sum.inl p) => some (p, 1)
      | some (Sum.inr (a, b)) =>
        (circLoopFuel l t fuel a b).map (fun r => (r.1, r.2 + 1))
    else
      some (-1, 0)

lemma circLoopFuel_eq (l : List Int) (t : Int) :
    ∀ fuel : Nat, ∀ lo up : Int, (up - lo + 1).toNat ≤ fuel →
      circLoopFuel l t fuel lo up = circBsLoop l t lo up := by
  intro fuel
  induction fuel with
  | zero =>
    intro lo up hf
    unfold circBsLoop circLoopFuel
    rw [if_neg (by omega), dif_neg (by omega)]
  | succ fuel ih =>
    intro lo up hf
    unfold circBsLoop circLoopFuel
    by_cases hle : lo ≤ up
    · rw [if_pos hle, dif_pos hle]
      split
      · next heq => rw [heq]
      · next p heq => rw [heq]
      · next a b heq =>
        rw [heq]
        have hlt := circStep_inr_lt hle heq
        rw [ih a b (by omega)]
    · rw [if_neg hle, dif_neg hle]

/-- Evaluating `circ_bs` through the fuel-indexed loop. -/
lemma circ_bs_eval {l : List Int} (t : Int) (h0 : l.length ≠ 0) :
    circ_bs l t = (circLoopFuel l t l.length 0 ((l.length : Int) - 1)).map Prod.fst := by
  unfold circ_bs
  rw [if_neg h0, circLoopFuel_eq l t l.length 0 _ (by omega)]

/-! ## The claims -/

/-- C1: for every strictly ascending sequence `S` of length `n`, every
rotation amount `k` with `0 ≤ k < max(n,1)` and every index `i` of `S`,
`circ_bs` on `rotate S k` with target `S[i]` does not return the absent
result `-1`, and the returned index `j` satisfies `rotate(S,k)[j] = S[i]`. -/
theorem circ_bs_rotated_finds (S : List Int) (hS : List.Sorted (· < ·) S)
    (k : Nat) (hk : k < max S.length 1) (i : Nat) (hi : i < S.length) :
    ∃ j : Int, circ_bs (rotate S k) (S.getD i 0) = some j ∧ j ≠ -1 ∧
      0 ≤ j ∧ j.toNat < (rotate S k).length ∧
      (rotate S k).getD j.toNat 0 = S.getD i 0 := by
  have hk' : k ≤ S.length := by omega
  have rs := rotSorted_rotate hS hk'
  have hmem : S.getD i 0 ∈ rotate S k := mem_rotate.2 (mem_iff_getD.2 ⟨i, hi, rfl⟩)
  obtain ⟨j, hj, h0, hlen, hval⟩ := circ_bs_finds_of_rotSorted rs hmem
  exact ⟨j, hj, by omega, h0, hlen, hval⟩

theorem circ_bs_rotated_finds_wit :
    ∃ j : Int, circ_bs (rotate [1, 2, 3] 1) (([1, 2, 3] : List Int).getD 0 0) = some j ∧
      j ≠ -1 ∧ 0 ≤ j ∧ j.toNat < (rotate [1, 2, 3] 1).length ∧
      (rotate [1, 2, 3] 1).getD j.toNat 0 = ([1, 2, 3] : List Int).getD 0 0 :=
  circ_bs_rotated_finds [1, 2, 3] (by decide) 1 (by decide) 0 (by decide)

/-- C2: on a rotation of a strictly ascending sequence (hence with strictly
unique elements), any absent target yields the absent result `-1`. -/
theorem circ_bs_unique_absent (S : List Int) (hS : List.Sorted (· < ·) S)
    (k : Nat) (hk : k ≤ S.length) (t : Int) (ht : t ∉ rotate S k) :
    circ_bs (rotate S k) t = some (-1) :=
  circ_bs_absent_of_not_mem ht

theorem circ_bs_unique_absent_wit :
    circ_bs (rotate [1, 2, 3] 1) 5 = some (-1) :=
  circ_bs_unique_absent [1, 2, 3] (by decide) 1 (by decide) 5 (by decide)

/-- C3: with no precondition on the sequence, `circ_bs` terminates with a
`some` result (never raises), the result is the absent marker `-1` or a
valid index, every reachable window `[lower, upper]` with `lower ≤ upper`
keeps the three read indices `lower`, `mid`, `upper` inside `[0, n)` (the
loop body reads the list only at those three indices), and the window
strictly shrinks on every loop iteration that does not return. -/
theorem circ_bs_safety (l : List Int) (t : Int) :
    (∃ p : Int, circ_bs l t = some p ∧
      (p = -1 ∨ (0 ≤ p ∧ p.toNat < l.length ∧ l.getD p.toNat 0 = t))) ∧
    (∀ lo up : Int, Reachable l t lo up → lo ≤ up →
      0 ≤ lo ∧ up < (l.length : Int) ∧
      lo ≤ Int.fdiv (up + lo) 2 ∧ Int.fdiv (up + lo) 2 ≤ up) ∧
    (∀ lo up a b : Int, lo ≤ up → circStep l t lo up = some (Sum.inr (a, b)) →
      b - a < up - lo) := by
  refine ⟨circ_bs_spec l t, ?_, fun lo up a b hle h => circStep_inr_lt hle h⟩
  intro lo up hr hle
  obtain ⟨h1, h2⟩ := reachable_bounds hr
  obtain ⟨hm1, hm2⟩ := fdiv2_bounds hle
  exact ⟨h1, by omega, hm1, hm2⟩

theorem circ_bs_safety_wit :
    0 ≤ (0 : Int) ∧ (([5, 6] : List Int).length : Int) - 1 < (([5, 6] : List Int).length : Int) ∧
      0 ≤ Int.fdiv ((([5, 6] : List Int).length : Int) - 1 + 0) 2 ∧
      Int.fdiv ((([5, 6] : List Int).length : Int) - 1 + 0) 2 ≤ (([5, 6] : List Int).length : Int) - 1 :=
  (circ_bs_safety [5, 6] 5).2.1 0 _ Reachable.init (by decide)

/-- C4: on a rotation of a strictly ascending sequence with the target
present, every reachable loop state `[lower, upper]` — i.e. the state at the
start of every iteration — contains a position holding the target. -/
theorem circ_bs_window_invariant (S : List Int) (hS : List.Sorted (· < ·) S)
    (k : Nat) (hk : k ≤ S.length) (t : Int) (ht : t ∈ rotate S k)
    (lo up : Int) (hreach : Reachable (rotate S k) t lo up) :
    ∃ j : Int, lo ≤ j ∧ j ≤ up ∧ (rotate S k).getD j.toNat 0 = t := by
  have rs := rotSorted_rotate hS hk
  induction hreach with
  | init =>
    obtain ⟨jj, hjj, hval⟩ := mem_iff_getD.1 ht
    exact ⟨(jj : Int), by omega, by omega, by simpa using hval⟩
  | step hr hle hstep ih =>
    obtain ⟨j, hj1, hj2, hjv⟩ := ih
    obtain ⟨hb1, hb2⟩ := reachable_bounds hr
    rcases circStep_cases rs hb1 (by omega) hj1 hj2 hjv with
      ⟨p, hstep', _⟩ | ⟨a', b', hstep', ha1, hb1', hja, hjb⟩
    · rw [hstep'] at hstep
      exact Sum.noConfusion (Option.some.inj hstep)
    · rw [hstep'] at hstep
      obtain ⟨rfl, rfl⟩ := Prod.mk.injEq .. ▸ Sum.inr.inj (Option.some.inj hstep)
      exact ⟨j, hja, hjb, hjv⟩

theorem circ_bs_window_invariant_wit :
    ∃ j : Int, 0 ≤ j ∧ j ≤ ((rotate [1, 2, 3] 1).length : Int) - 1 ∧
      (rotate [1, 2, 3] 1).getD j.toNat 0 = 3 :=
  circ_bs_window_invariant [1, 2, 3] (by decide) 1 (by decide) 3 (by decide)
    0 _ Reachable.init

/-- C5, counterexample: `[1,0,1,1,1]` is the rotation by 4 of the weakly
ascending `[0,1,1,1,1]`, the target `0` is present at index 1, yet
`circ_bs` returns the absent marker `-1` — no returned index holds the
target.  (First iteration: `mid = 2`, `list[2] = 1 ≠ 0`, both standard
range tests fail, and `list[0] = 1 > list[2] = 1` is false, so the search
moves right and abandons the half containing the `0`.) -/
theorem circ_bs_duplicates_missed :
    List.Sorted (· ≤ ·) [(0 : Int), 1, 1, 1, 1] ∧
    rotate [(0 : Int), 1, 1, 1, 1] 4 = [1, 0, 1, 1, 1] ∧
    (0 : Int) ∈ [(1 : Int), 0, 1, 1, 1] ∧
    ¬ ∃ j : Int, circ_bs [(1 : Int), 0, 1, 1, 1] 0 = some j ∧
      0 ≤ j ∧ ([(1 : Int), 0, 1, 1, 1] : List Int).getD j.toNat 0 = 0 := by
  refine ⟨by decide, by decide, by decide, ?_⟩
  rintro ⟨j, hj, hj0, hval⟩
  have h : circ_bs [(1 : Int), 0, 1, 1, 1] 0 = some (-1) := by
    rw [circ_bs_eval 0 (by decide)]
    decide
  rw [h] at hj
  have : (-1 : Int) = j := Option.some.inj hj
  omega

/-- C5, amended: the guarantee stands when the rotated sequence comes from a
*strictly* ascending sequence (unique elements): then every present target
yields some index holding it.  With duplicates the search can miss a present
target (see the counterexample). -/
theorem circ_bs_present_found (l : List Int) (S : List Int) (k : Nat)
    (hS : List.Sorted (· < ·) S) (hk : k ≤ S.length) (hl : l = rotate S k)
    (t : Int) (ht : t ∈ l) :
    ∃ j : Int, circ_bs l t = some j ∧ 0 ≤ j ∧ j.toNat < l.length ∧
      l.getD j.toNat 0 = t := by
  subst hl
  exact circ_bs_finds_of_rotSorted (rotSorted_rotate hS hk) ht

theorem circ_bs_present_found_wit :
    ∃ j : Int, circ_bs (rotate [1, 2, 3] 1) 1 = some j ∧ 0 ≤ j ∧
      j.toNat < (rotate [1, 2, 3] 1).length ∧
      (rotate [1, 2, 3] 1).getD j.toNat 0 = 1 :=
  circ_bs_present_found (rotate [1, 2, 3] 1) [1, 2, 3] 1 (by decide) (by decide)
    rfl 1 (by decide)

/-- C6: on a plain strictly ascending (unrotated, `k = 0`) sequence the
behaviour matches standard binary search: every present target yields an
index of a matching element, every absent target yields the absent
result `-1`. -/
theorem circ_bs_plain_sorted (l : List Int) (hS : List.Sorted (· < ·) l) (t : Int) :
    (t ∈ l → ∃ j : Int, circ_bs l t = some j ∧ 0 ≤ j ∧ j.toNat < l.length ∧
      l.getD j.toNat 0 = t) ∧
    (t ∉ l → circ_bs l t = some (-1)) :=
  ⟨fun ht => circ_bs_finds_of_rotSorted (rotSorted_sorted hS) ht,
   fun ht => circ_bs_absent_of_not_mem ht⟩

theorem circ_bs_plain_sorted_wit :
    ∃ j : Int, circ_bs [1, 2, 3] 2 = some j ∧ 0 ≤ j ∧
      j.toNat < ([1, 2, 3] : List Int).length ∧
      ([1, 2, 3] : List Int).getD j.toNat 0 = 2 :=
  (circ_bs_plain_sorted [1, 2, 3] (by decide) 2).1 (by decide)

/-- C7: degenerate cases.  The empty sequence yields the absent result with
zero loop iterations (hence no element comparison); a one-element sequence
`[x]` yields index `0` when searching `x` and the absent result for any
`y ≠ x`. -/
theorem circ_bs_degenerate (t x y : Int) (hxy : y ≠ x) :
    circ_bs [] t = some (-1) ∧ circIter [] t = some 0 ∧
    circ_bs [x] x = some 0 ∧ circ_bs [x] y = some (-1) := by
  refine ⟨rfl, rfl, ?_, ?_⟩
  · obtain ⟨j, hj, h0, hlen, hval⟩ := circ_bs_finds_of_rotSorted
      (rotSorted_sorted (S := [x]) (by simp)) (t := x) (by simp)
    have hj0 : j = 0 := by
      simp only [List.length_singleton] at hlen
      omega
    rw [hj0] at hj
    exact hj
  · obtain ⟨p, hp, hcase⟩ := circ_bs_spec [x] y
    rcases hcase with rfl | ⟨h0, hlen, hval⟩
    · exact hp
    · have hp0 : p = 0 := by
        simp only [List.length_singleton] at hlen
        omega
      rw [hp0] at hval
      have hxy' : x = y := by simpa using hval
      exact absurd hxy'.symm hxy

theorem circ_bs_degenerate_wit :
    circ_bs [] 0 = some (-1) ∧ circIter [] 0 = some 0 ∧
    circ_bs [1] 1 = some 0 ∧ circ_bs [1] 2 = some (-1) :=
  circ_bs_degenerate 0 1 2 (by decide)

set_option maxRecDepth 40000 in
/-- C8: concrete scenarios.  On `[6,7,8,1,2,3,4,5]` (that is, `[1..8]`
rotated by 5) the search returns 3 for target 1, 2 for target 8 and 7 for
target 5; on the 1000-element list `[800..999] ++ [0..799]` (that is,
`[0..999]` rotated by 800, where the spec counts the same sequence as
`[1..1000]` shifted by one, rotated by 200) it returns 200 for target 0. -/
theorem circ_bs_concrete_scenarios :
    circ_bs [6, 7, 8, 1, 2, 3, 4, 5] 1 = some 3 ∧
    circ_bs [6, 7, 8, 1, 2, 3, 4, 5] 8 = some 2 ∧
    circ_bs [6, 7, 8, 1, 2, 3, 4, 5] 5 = some 7 ∧
    circ_bs (rotate ((List.range 1000).map (fun n => (n : Int))) 800) 0 = some 200 := by
  refine ⟨?_, ?_, ?_, ?_⟩ <;>
  · rw [circ_bs_eval _ (by decide)]
    decide

/-- C9: for every sequence of length `n ≥ 1` and every target, the number of
executed loop bodies is at most `⌈log2 n⌉ + 1`. -/
theorem circ_bs_iter_bound (l : List Int) (t : Int) (h1 : 1 ≤ l.length) :
    ∃ c : Nat, circIter l t = some c ∧ c ≤ Nat.clog 2 l.length + 1 := by
  obtain ⟨p, c, hpc⟩ := circBsLoop_total l t l.length 0 ((l.length : Int) - 1)
    (by omega) (by omega) (by omega)
  have hbound := circBsLoop_iter l t l.length 0 ((l.length : Int) - 1)
    (by omega) (by omega) (by omega) p c hpc
  rw [if_neg (by omega)] at hbound
  refine ⟨c, ?_, le_trans hbound (by have := Nat.log_le_clog 2 l.length; omega)⟩
  unfold circIter
  rw [if_neg (by omega), hpc]
  rfl

theorem circ_bs_iter_bound_wit :
    ∃ c : Nat, circIter [3, 1] 1 = some c ∧
      c ≤ Nat.clog 2 ([3, 1] : List Int).length + 1 :=
  circ_bs_iter_bound [3, 1] 1 (by decide)

/-- C10: soundness on arbitrary input, with no sortedness or uniqueness
precondition: any returned value other than the absent marker `-1` is a
valid index holding the target, and if the target occurs nowhere the result
is the absent marker. -/
theorem circ_bs_arbitrary_sound (l : List Int) (t : Int) :
    (∀ p : Int, circ_bs l t = some p → p ≠ -1 →
      0 ≤ p ∧ p.toNat < l.length ∧ l.getD p.toNat 0 = t) ∧
    (t ∉ l → circ_bs l t = some (-1)) := by
  constructor
  · intro p hp hne
    obtain ⟨q, hq, hcase⟩ := circ_bs_spec l t
    rw [hp] at hq
    obtain rfl : p = q := Option.some.inj hq
    rcases hcase with rfl | h
    · exact absurd rfl hne
    · exact h
  · exact circ_bs_absent_of_not_mem

theorem circ_bs_arbitrary_sound_wit :
    circ_bs [3, 1, 2, 1] 5 = some (-1) :=
  (circ_bs_arbitrary_sound [3, 1, 2, 1] 5).2 (by decide)
